import Mathlib

/-!
# Verification of the Ember string-inflection utilities

A shallow embedding of `packages/ember-runtime/lib/system/string.js`.
JavaScript strings are modelled as lists of Unicode code points (`List Nat`);
each regular-expression replacement of the source is embedded as the
corresponding left-to-right scan with JavaScript `String.prototype.replace`
semantics (leftmost match, greedy quantifiers, resumption after the match).
The bounded memoizing `Cache` comes from `ember-metal`, which is not among
the sources; it is modelled from the specification (§4.1).
-/

set_option maxRecDepth 4000

/-- Code points matched by the JavaScript regex class `\s`. -/
def isWsN (n : Nat) : Bool :=
  decide (n = 9 ∨ n = 10 ∨ n = 11 ∨ n = 12 ∨ n = 13 ∨ n = 32 ∨ n = 0xA0 ∨
    n = 0x1680 ∨ (0x2000 ≤ n ∧ n ≤ 0x200A) ∨ n = 0x2028 ∨ n = 0x2029 ∨
    n = 0x202F ∨ n = 0x205F ∨ n = 0x3000 ∨ n = 0xFEFF)

/-- Code points matched by `[0-9]` (the regex class `\d`). -/
def isDigitN (n : Nat) : Bool := decide (48 ≤ n ∧ n ≤ 57)

/-- Code points matched by `[a-z]`. -/
def isLowerAZ (n : Nat) : Bool := decide (97 ≤ n ∧ n ≤ 122)

/-- Code points matched by `[A-Z]`. -/
def isUpperAZ (n : Nat) : Bool := decide (65 ≤ n ∧ n ≤ 90)

/-- Code points matched by `[a-z\d]` (source `STRING_DECAMELIZE_REGEXP`,
`STRING_UNDERSCORE_REGEXP_1`, first capture group). -/
def isLowerDigit (n : Nat) : Bool := isLowerAZ n || isDigitN n

/-- Code points matched by the alternation `(\-|\_|\.|\s)` used by
`STRING_CAMELISE_REGEXP_1` and `STRING_CLASSIFY_REGEXP_2`. -/
def isCamSep (n : Nat) : Bool := decide (n = 45 ∨ n = 95 ∨ n = 46) || isWsN n

/-- Code points matched by `(\-|_)` (source `STRING_CLASSIFY_REGEXP_1`). -/
def isDashUnd (n : Nat) : Bool := decide (n = 45 ∨ n = 95)

/-- JavaScript line terminators, the code points NOT matched by the regex `.`. -/
def isLineTerm (n : Nat) : Bool := decide (n = 10 ∨ n = 13 ∨ n = 0x2028 ∨ n = 0x2029)

/-- Code points matched by `[a-zÀ-ɏ]` (source `STRING_CAPITALIZE_REGEXP`). -/
def isCapLower (n : Nat) : Bool := isLowerAZ n || decide (0xC0 ≤ n ∧ n ≤ 0x24F)

/-- JavaScript `toLowerCase` on one code point, modelled by the Unicode simple
lower-case mappings for the ASCII and Latin-1 letter ranges that the source's
patterns reference; other code points are left unchanged in this model. -/
def lowChar (n : Nat) : Nat :=
  if 65 ≤ n ∧ n ≤ 90 then n + 32
  else if 0xC0 ≤ n ∧ n ≤ 0xDE ∧ n ≠ 0xD7 then n + 32
  else if n = 0x178 then 0xFF
  else n

/-- JavaScript `toUpperCase` on one code point (the result may be several code
points, e.g. `ß → SS`), modelled by the Unicode case mappings for ASCII,
Latin-1 and Latin Extended-A; code points above U+017F that are not covered by
those tables are left unchanged in this model. -/
def upChar (n : Nat) : List Nat :=
  if 97 ≤ n ∧ n ≤ 122 then [n - 32]
  else if n = 0xDF then [83, 83]
  else if 0xE0 ≤ n ∧ n ≤ 0xFE ∧ n ≠ 0xF7 then [n - 32]
  else if n = 0xFF then [0x178]
  else if n = 0x131 then [0x49]
  else if 0x100 ≤ n ∧ n ≤ 0x137 ∧ n % 2 = 1 then [n - 1]
  else if 0x139 ≤ n ∧ n ≤ 0x148 ∧ n % 2 = 0 then [n - 1]
  else if n = 0x149 then [0x2BC, 0x4E]
  else if 0x14A ≤ n ∧ n ≤ 0x177 ∧ n % 2 = 1 then [n - 1]
  else if 0x179 ≤ n ∧ n ≤ 0x17E ∧ n % 2 = 0 then [n - 1]
  else if n = 0x17F then [83]
  else [n]

/-- The code points of a string literal, for stating concrete examples. -/
def codes (s : String) : List Nat := s.data.map Char.toNat

mutual
/-- `String.prototype.split(/\s+/)`: scanning inside a fragment whose
code points so far are `cur` (reversed). -/
def splitWsAux : List Nat → List Nat → List (List Nat)
  | [], cur => [cur.reverse]
  | c :: rest, cur =>
    if isWsN c then cur.reverse :: splitWsGap rest else splitWsAux rest (c :: cur)

/-- `String.prototype.split(/\s+/)`: scanning inside a whitespace run. -/
def splitWsGap : List Nat → List (List Nat)
  | [] => [[]]
  | c :: rest => if isWsN c then splitWsGap rest else splitWsAux rest [c]
end

/-- Source `w`: `str.split(/\s+/)`. -/
def w (s : List Nat) : List (List Nat) := splitWsAux s []

/-- The replacement `str.replace(STRING_DECAMELIZE_REGEXP, '$1_$2')` with
`STRING_DECAMELIZE_REGEXP = /([a-z\d])([A-Z])/g`. -/
def decamRepl : List Nat → List Nat
  | a :: b :: rest =>
    if isLowerDigit a && isUpperAZ b then a :: 95 :: b :: decamRepl rest
    else a :: decamRepl (b :: rest)
  | l => l

/-- Source `DECAMELIZE_CACHE` compute function:
`str.replace(STRING_DECAMELIZE_REGEXP, '$1_$2').toLowerCase()`. -/
def decamelize (s : List Nat) : List Nat := (decamRepl s).map lowChar

/-- The replacement `.replace(STRING_DASHERIZE_REGEXP, '-')` with
`STRING_DASHERIZE_REGEXP = /[ _]/g`, applied to one code point. -/
def dashChar (n : Nat) : Nat := if n = 32 ∨ n = 95 then 45 else n

/-- Source `STRING_DASHERIZE_CACHE` compute function:
`decamelize(key).replace(STRING_DASHERIZE_REGEXP, '-')`.  (`decamelize` here
is the module function, which consults `DECAMELIZE_CACHE`; by the cache's
contract it is extensionally the pure transform.) -/
def dasherize (s : List Nat) : List Nat := (decamelize s).map dashChar

mutual
/-- The replacement `str.replace(STRING_UNDERSCORE_REGEXP_1, '$1_$2')` with
`STRING_UNDERSCORE_REGEXP_1 = /([a-z\d])([A-Z]+)/g`: on a match, `$1_` is
emitted and the greedy `[A-Z]+` run is copied by `underUp`. -/
def underRepl : List Nat → List Nat
  | [] => []
  | [a] => [a]
  | a :: b :: rest =>
    if isLowerDigit a && isUpperAZ b then a :: 95 :: b :: underUp rest
    else a :: underRepl (b :: rest)

/-- Copies the remainder of a greedy `[A-Z]+` run; at the first code point
after the run, scanning resumes (the resumed first step is written out so
that the recursion stays structural). -/
def underUp : List Nat → List Nat
  | [] => []
  | [c] => [c]
  | c :: b :: rest =>
    if isUpperAZ c then c :: underUp (b :: rest)
    else if isLowerDigit c && isUpperAZ b then c :: 95 :: b :: underUp rest
    else c :: underRepl (b :: rest)
end

mutual
/-- The replacement `.replace(STRING_UNDERSCORE_REGEXP_2, '_')` with
`STRING_UNDERSCORE_REGEXP_2 = /\-|\s+/g`: a single dash, or a greedy
whitespace run, becomes one underscore. -/
def underSep : List Nat → List Nat
  | [] => []
  | c :: rest =>
    if c = 45 then 95 :: underSep rest
    else if isWsN c then 95 :: underWsGap rest
    else c :: underSep rest

/-- Skips the remainder of a greedy `\s+` run; at the first code point after
the run, scanning resumes (the resumed first step is written out so that the
recursion stays structural). -/
def underWsGap : List Nat → List Nat
  | [] => []
  | c :: rest =>
    if isWsN c then underWsGap rest
    else if c = 45 then 95 :: underSep rest
    else c :: underSep rest
end

/-- Source `UNDERSCORE_CACHE` compute function:
`str.replace(R1, '$1_$2').replace(R2, '_').toLowerCase()`. -/
def underscore (s : List Nat) : List Nat := (underSep (underRepl s)).map lowChar

mutual
/-- First camelize replacement: `key.replace(STRING_CAMELIZE_REGEXP_1,
(match, separator, chr) => chr ? chr.toUpperCase() : '')` with
`STRING_CAMELIZE_REGEXP_1 = /(\-|\_|\.|\s)+(.)?/g`.  A greedy separator run
plus the following character (if any) is replaced by that character
upper-cased; a run at the end of the string is deleted.  (The optional `(.)`
always matches when a character follows the run, because every line
terminator is itself in `\s` and therefore part of the run.) -/
def camRepl1 : List Nat → List Nat
  | [] => []
  | c :: rest => if isCamSep c then camGap rest else c :: camRepl1 rest

/-- Inside a greedy separator run of `STRING_CAMELIZE_REGEXP_1`: the first
code point after the run is the optional `(.)` capture and is upper-cased;
a run reaching the end of the string is deleted. -/
def camGap : List Nat → List Nat
  | [] => []
  | d :: rest => if isCamSep d then camGap rest else upChar d ++ camRepl1 rest
end

/-- Second camelize replacement, scanning away from the start of the string:
only `/([A-Z])` matches can fire. -/
def camRepl2Body : List Nat → List Nat
  | [] => []
  | [a] => [a]
  | a :: b :: rest =>
    if a = 47 ∧ isUpperAZ b then a :: lowChar b :: camRepl2Body rest
    else a :: camRepl2Body (b :: rest)

/-- Second camelize replacement: `.replace(STRING_CAMELIZE_REGEXP_2,
match => match.toLowerCase())` with
`STRING_CAMELIZE_REGEXP_2 = /(^|\/)([A-Z])/g`. -/
def camRepl2 : List Nat → List Nat
  | [] => []
  | c :: rest =>
    if isUpperAZ c then lowChar c :: camRepl2Body rest
    else camRepl2Body (c :: rest)

/-- Source `CAMELIZE_CACHE` compute function: the two replacements in order. -/
def camelize (s : List Nat) : List Nat := camRepl2 (camRepl1 s)

/-- `String.prototype.split('/')` (code point 47), keeping empty fragments. -/
def splitSlash : List Nat → List (List Nat)
  | [] => [[]]
  | c :: rest =>
    if c = 47 then [] :: splitSlash rest
    else
      match splitSlash rest with
      | [] => [[c]]
      | h :: t => (c :: h) :: t

/-- `Array.prototype.join('/')` (code point 47). -/
def joinSlash : List (List Nat) → List Nat
  | [] => []
  | [x] => x
  | x :: xs => x ++ 47 :: joinSlash xs

/-- First classify replacement (per segment, not global, anchored):
`.replace(STRING_CLASSIFY_REGEXP_1, (match, separator, chr) =>
chr ? ('_' + chr.toUpperCase()) : '')` with
`STRING_CLASSIFY_REGEXP_1 = /^(\-|_)+(.)?/`.  The optional `(.)` does not
match a line terminator, which is not in `(\-|_)` and so ends the run. -/
def classifyRepl1 (s : List Nat) : List Nat :=
  match s with
  | [] => []
  | c :: rest =>
    if isDashUnd c then
      match (c :: rest).dropWhile isDashUnd with
      | [] => []
      | d :: rest2 => if isLineTerm d then d :: rest2 else 95 :: (upChar d ++ rest2)
    else s

mutual
/-- Second classify replacement (per segment):
`.replace(STRING_CLASSIFY_REGEXP_2, (match, initialChar, separator, chr) =>
initialChar + (chr ? chr.toUpperCase() : ''))` with
`STRING_CLASSIFY_REGEXP_2 = /(.)(\-|\_|\.|\s)+(.)?/g`.  The leading `(.)`
cannot match a line terminator; the trailing `(.)` always matches a following
character because line terminators are in `\s` and hence in the run. -/
def classifyRepl2 : List Nat → List Nat
  | [] => []
  | a :: rest =>
    if isLineTerm a then a :: classifyRepl2 rest
    else
      match rest with
      | [] => [a]
      | b :: rest2 =>
        if isCamSep b then a :: classifyGap rest2
        else a :: classifyRepl2 (b :: rest2)

/-- Inside a greedy separator run of `STRING_CLASSIFY_REGEXP_2` (the first
separator has already been consumed): the first code point after the run is
the optional `(.)` capture and is upper-cased; a run reaching the end of the
string leaves only the kept `initialChar`. -/
def classifyGap : List Nat → List Nat
  | [] => []
  | d :: rest => if isCamSep d then classifyGap rest else upChar d ++ classifyRepl2 rest
end

/-- Third classify replacement, scanning away from the start of the joined
string: only `(\/|\.)([a-z])` matches can fire. -/
def classifyRepl3Body : List Nat → List Nat
  | [] => []
  | a :: b :: rest =>
    if (a = 47 ∨ a = 46) ∧ isLowerAZ b then a :: ((b - 32) :: classifyRepl3Body rest)
    else a :: classifyRepl3Body (b :: rest)
  | [a] => [a]

/-- Third classify replacement: `.replace(STRING_CLASSIFY_REGEXP_3,
match => match.toUpperCase())` with
`STRING_CLASSIFY_REGEXP_3 = /(^|\/|\.)([a-z])/g`. -/
def classifyRepl3 : List Nat → List Nat
  | [] => []
  | c :: rest =>
    if isLowerAZ c then (c - 32) :: classifyRepl3Body rest
    else classifyRepl3Body (c :: rest)

/-- Source `CLASSIFY_CACHE` compute function: split on `/`, apply the first
two replacements per segment, rejoin with `/`, apply the third replacement. -/
def classify (s : List Nat) : List Nat :=
  classifyRepl3 (joinSlash ((splitSlash s).map fun seg => classifyRepl2 (classifyRepl1 seg)))

/-- Capitalize replacement, scanning away from the start of the string:
only `\/([a-zÀ-ɏ])` matches can fire. -/
def capBody : List Nat → List Nat
  | [] => []
  | [a] => [a]
  | a :: b :: rest =>
    if a = 47 ∧ isCapLower b then a :: (upChar b ++ capBody rest)
    else a :: capBody (b :: rest)

/-- Source `CAPITALIZE_CACHE` compute function:
`str.replace(STRING_CAPITALIZE_REGEXP, match => match.toUpperCase())` with
`STRING_CAPITALIZE_REGEXP = /(^|\/)([a-zÀ-ɏ])/g`. -/
def capitalize : List Nat → List Nat
  | [] => []
  | c :: rest =>
    if isCapLower c then upChar c ++ capBody rest
    else capBody (c :: rest)


/-- A JavaScript value passed to the formatting helper, as far as `_fmt`
distinguishes them: `null`, `undefined`, or a string.  Modelled from the spec:
other printable values go through the generic value-to-display conversion
`inspect` of `ember-utils` (not among the sources), which on strings is the
string itself, so string-valued arguments represent the general case. -/
inductive JSVal : Type
  | vnull : JSVal
  | vundef : JSVal
  | vstr : List Nat → JSVal
deriving DecidableEq

/-- The text substituted for a token whose resolved argument index is `i`:
`cachedFormats[argIndex]` is `undefined` when the index is out of range, and
the replacement is `(s === null) ? '(null)' : (s === undefined) ? '' :
inspect(s)`. -/
def argText (args : List JSVal) (i : Nat) : List Nat :=
  match args.get? i with
  | none => []
  | some JSVal.vnull => codes "(null)"
  | some JSVal.vundef => []
  | some (JSVal.vstr s) => s

/-- The scanner state of the embedded `_fmt` replacement: `txt` between
tokens, `tok acc seen` inside the optional `([0-9]+)` group of a `%@` token
(`acc` is the value of the digits read so far, `seen` whether there was at
least one digit). -/
inductive FmtState : Type
  | txt : FmtState
  | tok : Nat → Bool → FmtState
deriving DecidableEq

/-- The replacement for one complete `%@([0-9]+)?` token: with digits, the
argument at the 1-based index `parseInt(digits, 10) - 1` (so `%@0` accesses
index `-1`, which is `undefined`); without digits, the argument at the
running index `idx`. -/
def tokOut (args : List JSVal) (acc : Nat) (seen : Bool) (idx : Nat) : List Nat :=
  if seen then (if acc = 0 then [] else argText args (acc - 1)) else argText args idx

/-- The running index after a token: a numerical token leaves it unchanged,
a plain `%@` consumes it. -/
def nextIdx (seen : Bool) (idx : Nat) : Nat := if seen then idx else idx + 1

/-- The body of source `_fmt`: `str.replace(/%@([0-9]+)?/g, (s, argIndex) =>
...)`, as a left-to-right scan; `idx` is the running index for non-numerical
replacements.  (On leaving a token the first resumed scanning step is written
out so that the recursion stays structural.) -/
def fmtGo (args : List JSVal) : List Nat → FmtState → Nat → List Nat
  | [], FmtState.txt, _ => []
  | [], FmtState.tok acc seen, idx => tokOut args acc seen idx
  | 37 :: 64 :: rest, FmtState.txt, idx => fmtGo args rest (FmtState.tok 0 false) idx
  | c :: rest, FmtState.txt, idx => c :: fmtGo args rest FmtState.txt idx
  | 37 :: 64 :: rest, FmtState.tok acc seen, idx =>
    tokOut args acc seen idx ++ fmtGo args rest (FmtState.tok 0 false) (nextIdx seen idx)
  | c :: rest, FmtState.tok acc seen, idx =>
    if isDigitN c then fmtGo args rest (FmtState.tok (acc * 10 + (c - 48)) true) idx
    else tokOut args acc seen idx ++ (c :: fmtGo args rest FmtState.txt (nextIdx seen idx))

/-- Source `_fmt(str, formats)` called with an array of formats.  The
variadic normalization at the top of `_fmt` (repacking `arguments` into an
array when `formats` is not an array or more than two arguments are passed)
is interface plumbing; the embedding is the call with an array of formats,
for which that branch is skipped. -/
def fmt (s : List Nat) (formats : List JSVal) : List Nat := fmtGo formats s FmtState.txt 0

/-- The JavaScript expression `getString(str) || str` of source `loc`:
both an absent registry entry (`undefined`) and any other falsy value —
in particular the empty string — fall back to `str`. -/
def jsOrElse (x : Option (List Nat)) (y : List Nat) : List Nat :=
  match x with
  | none => y
  | some r => if r = [] then y else r

/-- Source `loc(str, formats)`.  Modelled from the spec: the string registry
(`ember-runtime/lib/string_registry`, not among the sources) is an externally
owned key-to-string lookup, modelled as a function to `Option`; `loc` applies
`_fmt` to `getString(str) || str`. -/
def loc (reg : List Nat → Option (List Nat)) (s : List Nat) (formats : List JSVal) :
    List Nat :=
  fmt (jsOrElse (reg s) s) formats

/-- Modelled from the spec: the bounded memoizing `Cache` of `ember-metal`
(not among the sources), specification §3 and §4.1: a fixed positive
`capacity`, the resident entries in insertion order (oldest first), the
configured compute function, and the recorded miss count. -/
structure Cache : Type where
  capacity : Nat
  entries : List (List Nat × List Nat)
  compute : List Nat → List Nat
  misses : Nat

/-- Lookup of a key among the resident entries. -/
def cacheLookup (k : List Nat) : List (List Nat × List Nat) → Option (List Nat)
  | [] => none
  | (k2, v) :: rest => if k2 = k then some v else cacheLookup k rest

/-- Modelled from the spec: `Cache.get(key)` (§4.1).  A hit returns the
stored value and leaves the cache unchanged; a miss invokes the compute
function, evicts the oldest resident entry first when the insertion would
exceed capacity (first-in-first-out; reads do not refresh recency), stores
the new entry as youngest, and counts the miss. -/
def Cache.get (c : Cache) (k : List Nat) : List Nat × Cache :=
  match cacheLookup k c.entries with
  | some v => (v, c)
  | none =>
    let v := c.compute k
    let kept := if c.capacity ≤ c.entries.length then c.entries.tail else c.entries
    (v, { c with entries := kept ++ [(k, v)], misses := c.misses + 1 })

/-- `new Cache(1000, f)`: a fresh cache of capacity 1000, as constructed for
each of the six transforms. -/
def mkCache (f : List Nat → List Nat) : Cache :=
  { capacity := 1000, entries := [], compute := f, misses := 0 }

/-- Source `DECAMELIZE_CACHE = new Cache(1000, key => ...)`. -/
def DECAMELIZE_CACHE : Cache := mkCache decamelize

/-- Source `STRING_DASHERIZE_CACHE = new Cache(1000, key => ...)`. -/
def STRING_DASHERIZE_CACHE : Cache := mkCache dasherize

/-- Source `CAMELIZE_CACHE = new Cache(1000, key => ...)`. -/
def CAMELIZE_CACHE : Cache := mkCache camelize

/-- Source `CLASSIFY_CACHE = new Cache(1000, str => ...)`. -/
def CLASSIFY_CACHE : Cache := mkCache classify

/-- Source `UNDERSCORE_CACHE = new Cache(1000, str => ...)`. -/
def UNDERSCORE_CACHE : Cache := mkCache underscore

/-- Source `CAPITALIZE_CACHE = new Cache(1000, str => ...)`. -/
def CAPITALIZE_CACHE : Cache := mkCache capitalize

/-- Performing `Cache.get` for each key in turn, keeping the final state. -/
def insertAll (c : Cache) (ks : List (List Nat)) : Cache :=
  ks.foldl (fun acc k => (Cache.get acc k).2) c

/-- Every resident value is the compute function's output for its key. -/
def CacheWF (c : Cache) : Prop := ∀ p ∈ c.entries, p.2 = c.compute p.1

/-- Follows the spec's words (for comparison in claim C5): insert an
underscore between each lowercase-letter-or-digit and an immediately
following uppercase letter, and nowhere else; every such boundary receives
exactly one underscore, and runs of consecutive uppercase letters are never
split internally. -/
def decamSpecIns : List Nat → List Nat
  | a :: b :: rest =>
    (if isLowerDigit a && isUpperAZ b then [a, 95] else [a]) ++ decamSpecIns (b :: rest)
  | l => l

/-- Follows the spec's words (for comparison in claim C9): upper-case the
first letter of the whole string and the first letter immediately following
each '/', when it is in the range `[a-zÀ-ɏ]`, and leave every other position
unchanged; `atB` is true at position 0 and immediately after a '/'. -/
def capSpecGo : Bool → List Nat → List Nat
  | _, [] => []
  | atB, c :: rest =>
    (if atB && isCapLower c then upChar c else [c]) ++ capSpecGo (decide (c = 47)) rest

/-- Follows the spec's words (for comparison in claim C9). -/
def capitalizeSpec (s : List Nat) : List Nat := capSpecGo true s

/-! ## Character-level lemmas -/

theorem isUpperAZ_lowChar (n : Nat) : isUpperAZ (lowChar n) = false := by
  simp only [lowChar, isUpperAZ, decide_eq_false_iff_not]
  split_ifs <;> omega

theorem lowChar_lowChar (n : Nat) : lowChar (lowChar n) = lowChar n := by
  simp only [lowChar]
  split_ifs <;> omega

theorem lowChar_ne_45 (n : Nat) (h : n ≠ 45) : lowChar n ≠ 45 := by
  simp only [lowChar]
  split_ifs <;> omega

theorem isWsN_lowChar (n : Nat) (h : isWsN n = false) : isWsN (lowChar n) = false := by
  simp only [isWsN, decide_eq_false_iff_not] at h ⊢
  simp only [lowChar]
  split_ifs <;> omega

theorem dashChar_ne_32_95 (n : Nat) : dashChar n ≠ 32 ∧ dashChar n ≠ 95 := by
  simp only [dashChar]
  split_ifs <;> omega

theorem dashChar_fixed (n : Nat) (h1 : n ≠ 32) (h2 : n ≠ 95) : dashChar n = n := by
  simp only [dashChar]
  split_ifs <;> omega

theorem isUpperAZ_dashChar (n : Nat) (h : isUpperAZ n = false) :
    isUpperAZ (dashChar n) = false := by
  simp only [isUpperAZ, decide_eq_false_iff_not] at h ⊢
  simp only [dashChar]
  split_ifs <;> omega

theorem isLowerDigit_of_upper (n : Nat) (h : isUpperAZ n = true) :
    isLowerDigit n = false := by
  simp only [isUpperAZ, decide_eq_true_eq] at h
  simp only [isLowerDigit, isLowerAZ, isDigitN, Bool.or_eq_false_iff,
    decide_eq_false_iff_not]
  omega

theorem isCapLower_ne_47 (n : Nat) (h : isCapLower n = true) : n ≠ 47 := by
  simp only [isCapLower, isLowerAZ, Bool.or_eq_true, decide_eq_true_eq] at h
  omega

set_option maxHeartbeats 1000000 in
theorem upChar_ne_47 (n : Nat) (h : n ≠ 47) : 47 ∉ upChar n := by
  simp only [upChar]
  split_ifs <;> simp only [List.mem_cons, List.not_mem_nil, or_false] <;> omega

/-! ## List helpers -/

theorem listLenInd {α : Type} {P : List α → Prop}
    (step : ∀ l, (∀ l2 : List α, l2.length < l.length → P l2) → P l) : ∀ l, P l := by
  have H : ∀ n, ∀ l : List α, l.length ≤ n → P l := by
    intro n
    induction n with
    | zero =>
      intro l hl
      exact step l (fun l2 h2 => absurd (Nat.lt_of_lt_of_le h2 hl) (Nat.not_lt_zero _))
    | succ n ih =>
      intro l hl
      exact step l (fun l2 h2 => ih l2 (by omega))
  exact fun l => H l.length l (Nat.le_refl _)

theorem mapFixed {α : Type} (f : α → α) :
    ∀ l : List α, (∀ c ∈ l, f c = c) → l.map f = l
  | [], _ => rfl
  | c :: rest, h => by
    simp only [List.map_cons, List.cons.injEq]
    exact ⟨h c (List.mem_cons_self c rest),
      mapFixed f rest (fun d hd => h d (List.mem_cons_of_mem c hd))⟩

/-! ## Claim C3: `w` -/

/-- Claim C3: `w` splits on runs of whitespace, and on interior runs yields
exactly the expected fragments (`w('alpha  beta gamma') == ['alpha', 'beta',
'gamma']`); but, contradicting the claim and the source's own doc comment
("eliminating any empty strings in the process"), a leading or trailing
whitespace run yields an empty fragment, exactly as
`String.prototype.split(/\s+/)` behaves. -/
theorem w_keeps_boundary_empty_fragments :
    w (codes "alpha  beta gamma") = [codes "alpha", codes "beta", codes "gamma"] ∧
    w (codes " alpha") = [[], codes "alpha"] ∧
    w (codes "alpha ") = [codes "alpha", []] :=
  ⟨by decide, by decide, by decide⟩

/-! ## Idempotence machinery for `underscore` and `dasherize` -/

theorem underRepl_mem :
    ∀ l : List Nat, (∀ c ∈ underRepl l, c = 95 ∨ c ∈ l) ∧
      (∀ c ∈ underUp l, c = 95 ∨ c ∈ l) := by
  intro l
  induction l using listLenInd with
  | step l ih =>
    match l with
    | [] => exact ⟨fun c hc => by simp [underRepl] at hc, fun c hc => by simp [underUp] at hc⟩
    | [a] =>
      constructor <;> intro c hc <;> simp only [underRepl, underUp, List.mem_singleton] at hc <;>
        simp [hc]
    | a :: b :: rest =>
      have iha := ih (b :: rest) (by simp)
      have ihr := ih rest (by simp; omega)
      constructor
      · intro c hc
        simp only [underRepl] at hc
        split_ifs at hc with hcond
        · simp only [List.mem_cons] at hc
          rcases hc with rfl | rfl | rfl | hc
          · simp
          · simp
          · simp
          · rcases ihr.2 c hc with h95 | hmem
            · exact Or.inl h95
            · simp only [List.mem_cons]
              tauto
        · simp only [List.mem_cons] at hc
          rcases hc with rfl | hc
          · simp
          · rcases iha.1 c hc with h95 | hmem
            · exact Or.inl h95
            · simp only [List.mem_cons] at hmem ⊢
              tauto
      · intro c hc
        simp only [underUp] at hc
        split_ifs at hc with h1 h2
        · simp only [List.mem_cons] at hc
          rcases hc with rfl | hc
          · simp
          · rcases iha.2 c hc with h95 | hmem
            · exact Or.inl h95
            · simp only [List.mem_cons] at hmem ⊢
              tauto
        · simp only [List.mem_cons] at hc
          rcases hc with rfl | rfl | rfl | hc
          · simp
          · simp
          · simp
          · rcases ihr.2 c hc with h95 | hmem
            · exact Or.inl h95
            · simp only [List.mem_cons]
              tauto
        · simp only [List.mem_cons] at hc
          rcases hc with rfl | hc
          · simp
          · rcases iha.1 c hc with h95 | hmem
            · exact Or.inl h95
            · simp only [List.mem_cons] at hmem ⊢
              tauto

theorem underRepl_id :
    ∀ l : List Nat, (∀ c ∈ l, isUpperAZ c = false) →
      underRepl l = l ∧ underUp l = l := by
  intro l
  induction l using listLenInd with
  | step l ih =>
    intro hl
    match l with
    | [] => exact ⟨rfl, rfl⟩
    | [a] => exact ⟨rfl, rfl⟩
    | a :: b :: rest =>
      have hb : isUpperAZ b = false := hl b (by simp)
      have ha : isUpperAZ a = false := hl a (by simp)
      have hcond : (isLowerDigit a && isUpperAZ b) = false := by rw [hb]; simp
      have hcond2 : (isLowerDigit a && isUpperAZ b) ≠ true := by simp [hcond]
      have iha := ih (b :: rest) (by simp) (fun c hc => hl c (List.mem_cons_of_mem a hc))
      constructor
      · simp only [underRepl, if_neg hcond2, iha.1]
      · simp only [underUp, if_neg (by simp [ha] : ¬isUpperAZ a = true), if_neg hcond2, iha.1]

theorem underSep_mem :
    ∀ l : List Nat,
      (∀ c ∈ underSep l, c = 95 ∨ (c ∈ l ∧ c ≠ 45 ∧ isWsN c = false)) ∧
      (∀ c ∈ underWsGap l, c = 95 ∨ (c ∈ l ∧ c ≠ 45 ∧ isWsN c = false)) := by
  intro l
  induction l using listLenInd with
  | step l ih =>
    match l with
    | [] =>
      exact ⟨fun c hc => by simp [underSep] at hc, fun c hc => by simp [underWsGap] at hc⟩
    | a :: rest =>
      have ihr := ih rest (by simp)
      constructor
      · intro c hc
        simp only [underSep] at hc
        split_ifs at hc with h1 h2
        · simp only [List.mem_cons] at hc
          rcases hc with rfl | hc
          · exact Or.inl rfl
          · rcases ihr.1 c hc with h95 | ⟨hm, hx⟩
            · exact Or.inl h95
            · exact Or.inr ⟨List.mem_cons_of_mem a hm, hx⟩
        · simp only [List.mem_cons] at hc
          rcases hc with rfl | hc
          · exact Or.inl rfl
          · rcases ihr.2 c hc with h95 | ⟨hm, hx⟩
            · exact Or.inl h95
            · exact Or.inr ⟨List.mem_cons_of_mem a hm, hx⟩
        · simp only [List.mem_cons] at hc
          rcases hc with rfl | hc
          · exact Or.inr ⟨by simp, h1, by simp [h2]⟩
          · rcases ihr.1 c hc with h95 | ⟨hm, hx⟩
            · exact Or.inl h95
            · exact Or.inr ⟨List.mem_cons_of_mem a hm, hx⟩
      · intro c hc
        simp only [underWsGap] at hc
        split_ifs at hc with h1 h2
        · rcases ihr.2 c hc with h95 | ⟨hm, hx⟩
          · exact Or.inl h95
          · exact Or.inr ⟨List.mem_cons_of_mem a hm, hx⟩
        · simp only [List.mem_cons] at hc
          rcases hc with rfl | hc
          · exact Or.inl rfl
          · rcases ihr.1 c hc with h95 | ⟨hm, hx⟩
            · exact Or.inl h95
            · exact Or.inr ⟨List.mem_cons_of_mem a hm, hx⟩
        · simp only [List.mem_cons] at hc
          rcases hc with rfl | hc
          · exact Or.inr ⟨by simp, h2, by simp [h1]⟩
          · rcases ihr.1 c hc with h95 | ⟨hm, hx⟩
            · exact Or.inl h95
            · exact Or.inr ⟨List.mem_cons_of_mem a hm, hx⟩

theorem underSep_id :
    ∀ l : List Nat, (∀ c ∈ l, c ≠ 45 ∧ isWsN c = false) → underSep l = l := by
  intro l
  induction l using listLenInd with
  | step l ih =>
    intro hl
    match l with
    | [] => rfl
    | a :: rest =>
      have ha := hl a (by simp)
      have ihr := ih rest (by simp) (fun c hc => hl c (List.mem_cons_of_mem a hc))
      simp only [underSep, if_neg (by simp [ha.1] : ¬a = 45),
        if_neg (by simp [ha.2] : ¬isWsN a = true), ihr]

theorem underscore_chars (s : List Nat) :
    ∀ c ∈ underscore s, isUpperAZ c = false ∧ c ≠ 45 ∧ isWsN c = false ∧ lowChar c = c := by
  intro c hc
  simp only [underscore, List.mem_map] at hc
  obtain ⟨d, hd, rfl⟩ := hc
  rcases (underSep_mem (underRepl s)).1 d hd with rfl | ⟨_, hd45, hdws⟩
  · exact ⟨by decide, by decide, by decide, by decide⟩
  · exact ⟨isUpperAZ_lowChar d, lowChar_ne_45 d hd45, isWsN_lowChar d hdws, lowChar_lowChar d⟩

theorem decamRepl_mem :
    ∀ l : List Nat, ∀ c ∈ decamRepl l, c = 95 ∨ c ∈ l := by
  intro l
  induction l using listLenInd with
  | step l ih =>
    intro c hc
    match l with
    | [] => simp [decamRepl] at hc
    | [a] => simp only [decamRepl, List.mem_singleton] at hc; simp [hc]
    | a :: b :: rest =>
      simp only [decamRepl] at hc
      split_ifs at hc with hcond
      · simp only [List.mem_cons] at hc
        rcases hc with rfl | rfl | rfl | hc
        · simp
        · simp
        · simp
        · rcases ih rest (by simp; omega) c hc with h95 | hm
          · exact Or.inl h95
          · simp only [List.mem_cons]
            tauto
      · simp only [List.mem_cons] at hc
        rcases hc with rfl | hc
        · simp
        · rcases ih (b :: rest) (by simp) c hc with h95 | hm
          · exact Or.inl h95
          · simp only [List.mem_cons] at hm ⊢
            tauto

theorem decamRepl_id :
    ∀ l : List Nat, (∀ c ∈ l, isUpperAZ c = false) → decamRepl l = l := by
  intro l
  induction l using listLenInd with
  | step l ih =>
    intro hl
    match l with
    | [] => rfl
    | [a] => rfl
    | a :: b :: rest =>
      have hb : isUpperAZ b = false := hl b (by simp)
      have hcond : ¬(isLowerDigit a && isUpperAZ b) = true := by simp [hb]
      have iha := ih (b :: rest) (by simp) (fun c hc => hl c (List.mem_cons_of_mem a hc))
      simp only [decamRepl, if_neg hcond, iha]

theorem dasherize_chars (s : List Nat) :
    ∀ c ∈ dasherize s, isUpperAZ c = false ∧ lowChar c = c ∧ dashChar c = c := by
  intro c hc
  simp only [dasherize, decamelize, List.map_map, List.mem_map] at hc
  obtain ⟨d, _, rfl⟩ := hc
  simp only [Function.comp_apply]
  by_cases he : lowChar d = 32 ∨ lowChar d = 95
  · have : dashChar (lowChar d) = 45 := by simp [dashChar, he]
    rw [this]
    exact ⟨by decide, by decide, by decide⟩
  · push_neg at he
    rw [dashChar_fixed (lowChar d) he.1 he.2]
    exact ⟨isUpperAZ_lowChar d, lowChar_lowChar d,
      dashChar_fixed (lowChar d) he.1 he.2⟩

/-- Claim C4: `underscore` and `dasherize` are idempotent, for every string;
in particular an already-underscored or already-dashed string is unchanged. -/
theorem underscore_dasherize_idempotent :
    (∀ s, underscore (underscore s) = underscore s) ∧
    (∀ s, dasherize (dasherize s) = dasherize s) ∧
    underscore (codes "inner_html") = codes "inner_html" ∧
    dasherize (codes "css-class-name") = codes "css-class-name" := by
  refine ⟨fun s => ?_, fun s => ?_, by decide, by decide⟩
  · have hchars := underscore_chars s
    show (underSep (underRepl (underscore s))).map lowChar = underscore s
    rw [(underRepl_id (underscore s) (fun c hc => (hchars c hc).1)).1,
      underSep_id (underscore s) (fun c hc => ⟨(hchars c hc).2.1, (hchars c hc).2.2.1⟩)]
    exact mapFixed lowChar (underscore s) (fun c hc => (hchars c hc).2.2.2)
  · have hchars := dasherize_chars s
    show ((decamRepl (dasherize s)).map lowChar).map dashChar = dasherize s
    rw [decamRepl_id (dasherize s) (fun c hc => (hchars c hc).1),
      mapFixed lowChar (dasherize s) (fun c hc => (hchars c hc).2.1)]
    exact mapFixed dashChar (dasherize s) (fun c hc => (hchars c hc).2.2)

/-! ## Claim C5: `decamelize` -/

theorem decamSpecIns_cons (b : Nat) (rest : List Nat) (hb : isLowerDigit b = false) :
    decamSpecIns (b :: rest) = b :: decamSpecIns rest := by
  cases rest with
  | nil => rfl
  | cons r rest2 => simp [decamSpecIns, hb]

theorem decamRepl_eq_spec : ∀ l : List Nat, decamRepl l = decamSpecIns l := by
  intro l
  induction l using listLenInd with
  | step l ih =>
    match l with
    | [] => rfl
    | [a] => rfl
    | a :: b :: rest =>
      by_cases hcond : (isLowerDigit a && isUpperAZ b) = true
      · have hb : isUpperAZ b = true := by
          rw [Bool.and_eq_true] at hcond
          exact hcond.2
        simp only [decamRepl, if_pos hcond, decamSpecIns, if_pos hcond]
        rw [decamSpecIns_cons b rest (isLowerDigit_of_upper b hb), ih rest (by simp; omega)]
        rfl
      · simp only [decamRepl, if_neg hcond, decamSpecIns, if_neg hcond]
        rw [ih (b :: rest) (by simp)]
        rfl

/-- Claim C5: for every string, `decamelize` inserts an underscore exactly
between each lowercase-letter-or-digit and an immediately following uppercase
letter — so a run of consecutive uppercase letters is never split internally —
and then lower-cases the whole result; in particular
`decamelize('innerHTML') == 'inner_html'`. -/
theorem decamelize_inserts_boundary_underscores :
    (∀ s, decamelize s = (decamSpecIns s).map lowChar) ∧
    decamelize (codes "innerHTML") = codes "inner_html" :=
  ⟨fun s => by rw [decamelize, decamRepl_eq_spec], by decide⟩

/-! ## Claim C9: `capitalize` -/

theorem capSpecGo_not_lower (b : Nat) (hb : isCapLower b = false) (atB : Bool)
    (rest : List Nat) :
    capSpecGo atB (b :: rest) = b :: capSpecGo (decide (b = 47)) rest := by
  simp [capSpecGo, hb]

theorem capBody_eq_spec : ∀ l : List Nat, capBody l = capSpecGo false l := by
  intro l
  induction l using listLenInd with
  | step l ih =>
    match l with
    | [] => rfl
    | [a] => simp [capBody, capSpecGo]
    | a :: b :: rest =>
      by_cases ha : a = 47
      · subst ha
        by_cases hb : isCapLower b = true
        · have hb47 : b ≠ 47 := isCapLower_ne_47 b hb
          have ihrest := ih rest (by simp; omega)
          simp [capBody, capSpecGo, hb, hb47, ihrest]
        · have hb2 : isCapLower b = false := by simpa using hb
          have ihb := ih (b :: rest) (by simp)
          simp [capBody, capSpecGo, hb2, ihb]
      · have ihb := ih (b :: rest) (by simp)
        simp [capBody, capSpecGo, ha, ihb]

theorem capitalize_eq_spec : ∀ s : List Nat, capitalize s = capitalizeSpec s := by
  intro s
  match s with
  | [] => rfl
  | c :: rest =>
    by_cases hc : isCapLower c = true
    · have hc47 : c ≠ 47 := isCapLower_ne_47 c hc
      simp [capitalize, capitalizeSpec, capSpecGo, hc, hc47, capBody_eq_spec rest]
    · have hc2 : isCapLower c = false := by simpa using hc
      rw [capitalize, if_neg hc, capBody_eq_spec (c :: rest)]
      by_cases hc47 : c = 47
      · subst hc47
        simp [capitalizeSpec, capSpecGo, hc2]
      · simp [capitalizeSpec, capSpecGo, hc2, hc47]

/-- Claim C9, as stated, is false on the code at its own example input:
`capitalize('privateDocs/ownerInvoice')` also upper-cases the `o` after the
slash, yielding `'PrivateDocs/OwnerInvoice'` rather than the claimed
`'PrivateDocs/ownerInvoice'`. -/
theorem capitalize_slash_example_refuted :
    capitalize (codes "privateDocs/ownerInvoice") ≠ codes "PrivateDocs/ownerInvoice" ∧
    capitalize (codes "privateDocs/ownerInvoice") = codes "PrivateDocs/OwnerInvoice" :=
  ⟨by decide, by decide⟩

/-- Claim C9 (amended: the after-slash letter in the second example is also
upper-cased): for every string, `capitalize` upper-cases the first letter of
the whole string and the first letter immediately following each '/', leaving
all other characters unchanged, and the affected range covers extended Latin
letters besides ASCII `a-z`; in particular
`capitalize('my favorite items') == 'My favorite items'` and
`capitalize('privateDocs/ownerInvoice') == 'PrivateDocs/OwnerInvoice'`. -/
theorem capitalize_first_letter_of_each_segment :
    (∀ s, capitalize s = capitalizeSpec s) ∧
    capitalize (codes "my favorite items") = codes "My favorite items" ∧
    capitalize (codes "àlpha/ëx") = codes "Àlpha/Ëx" :=
  ⟨capitalize_eq_spec, by decide, by decide⟩

/-! ## Claim C8: segment-awareness of `camelize` and `classify` -/

theorem isCamSep_47 : isCamSep 47 = false := by decide

theorem lowChar_ne_47 (n : Nat) (h : n ≠ 47) : lowChar n ≠ 47 := by
  simp only [lowChar]
  split_ifs <;> omega

theorem dropWhileSub {p : Nat → Bool} : ∀ l : List Nat, ∀ c ∈ l.dropWhile p, c ∈ l
  | a :: rest, c, hc => by
    rw [List.dropWhile] at hc
    cases hp : p a with
    | true =>
      rw [hp] at hc
      exact List.mem_cons_of_mem a (dropWhileSub rest c hc)
    | false =>
      rw [hp] at hc
      exact hc

theorem joinSlash_cons (x : List Nat) (y : List Nat) (t : List (List Nat)) :
    joinSlash (x :: y :: t) = x ++ 47 :: joinSlash (y :: t) := rfl

theorem splitSlash_ne_nil (l : List Nat) : splitSlash l ≠ [] := by
  cases l with
  | nil => simp [splitSlash]
  | cons c rest =>
    simp only [splitSlash]
    split_ifs
    · simp
    · cases h : splitSlash rest <;> simp

theorem splitSlash_join : ∀ l : List Nat, joinSlash (splitSlash l) = l := by
  intro l
  induction l with
  | nil => rfl
  | cons c rest ih =>
    simp only [splitSlash]
    split_ifs with hc
    · subst hc
      cases h : splitSlash rest with
      | nil => exact absurd h (splitSlash_ne_nil rest)
      | cons x t =>
        rw [h] at ih
        rw [joinSlash_cons]
        simp [ih]
    · cases h : splitSlash rest with
      | nil => exact absurd h (splitSlash_ne_nil rest)
      | cons x t =>
        rw [h] at ih
        cases t with
        | nil => simpa [joinSlash] using congrArg (c :: ·) ih
        | cons y t2 =>
          rw [joinSlash_cons] at ih ⊢
          simp [← ih]

theorem splitSlash_no47 : ∀ l : List Nat, ∀ seg ∈ splitSlash l, 47 ∉ seg := by
  intro l
  induction l with
  | nil => intro seg hseg; simp [splitSlash] at hseg; simp [hseg]
  | cons c rest ih =>
    intro seg hseg
    simp only [splitSlash] at hseg
    split_ifs at hseg with hc
    · rcases List.mem_cons.1 hseg with rfl | hm
      · simp
      · exact ih seg hm
    · cases h : splitSlash rest with
      | nil => exact absurd h (splitSlash_ne_nil rest)
      | cons x t =>
        rw [h] at hseg
        rcases List.mem_cons.1 hseg with rfl | hm
        · intro hmem
          rcases List.mem_cons.1 hmem with h47 | hx
          · exact hc h47.symm
          · exact ih x (h ▸ List.mem_cons_self x t) hx
        · exact ih seg (h ▸ List.mem_cons_of_mem x hm)

theorem splitSlash_of_no47 : ∀ l : List Nat, 47 ∉ l → splitSlash l = [l] := by
  intro l
  induction l with
  | nil => intro _; rfl
  | cons c rest ih =>
    intro h47
    have hc : c ≠ 47 := fun h => h47 (by simp [h])
    have hrest : 47 ∉ rest := fun h => h47 (List.mem_cons_of_mem c h)
    simp only [splitSlash, if_neg hc, ih hrest]

theorem camRepl1_no47 :
    ∀ l : List Nat, 47 ∉ l → 47 ∉ camRepl1 l ∧ 47 ∉ camGap l := by
  intro l
  induction l with
  | nil => exact fun _ => ⟨by simp [camRepl1], by simp [camGap]⟩
  | cons c rest ih =>
    intro h47
    have hc : c ≠ 47 := fun h => h47 (by simp [h])
    have hrest := ih (fun h => h47 (List.mem_cons_of_mem c h))
    constructor
    · simp only [camRepl1]
      split_ifs
      · exact hrest.2
      · intro hm
        rcases List.mem_cons.1 hm with h | h
        · exact hc h.symm
        · exact hrest.1 h
    · simp only [camGap]
      split_ifs
      · exact hrest.2
      · intro hm
        rcases List.mem_append.1 hm with h | h
        · exact upChar_ne_47 c (fun h2 => hc h2) h
        · exact hrest.1 h

theorem camRepl1_cross :
    ∀ a : List Nat, 47 ∉ a → ∀ t,
      camRepl1 (a ++ 47 :: t) = camRepl1 a ++ 47 :: camRepl1 t ∧
      camGap (a ++ 47 :: t) = camGap a ++ 47 :: camRepl1 t := by
  intro a
  induction a with
  | nil =>
    intro _ t
    constructor
    · simp only [List.nil_append, camRepl1, isCamSep_47, Bool.false_eq_true, if_false]
    · simp only [List.nil_append, camGap, isCamSep_47, Bool.false_eq_true, if_false]
      have h47 : (47 : Nat) ∉ ([] : List Nat) := by simp
      simp [upChar, camGap]
  | cons c rest ih =>
    intro h47 t
    have hc : c ≠ 47 := fun h => h47 (by simp [h])
    have hrest := ih (fun h => h47 (List.mem_cons_of_mem c h)) t
    constructor
    · simp only [List.cons_append, camRepl1]
      split_ifs
      · exact hrest.2
      · simp [hrest.1]
    · simp only [List.cons_append, camGap]
      split_ifs
      · exact hrest.2
      · simp [hrest.1]

theorem camRepl2_cons (c : Nat) (rest : List Nat) :
    camRepl2 (c :: rest) =
      if isUpperAZ c = true then lowChar c :: camRepl2Body rest
      else camRepl2Body (c :: rest) := rfl

theorem camRepl2Body_cons2 (a b : Nat) (rest : List Nat) :
    camRepl2Body (a :: b :: rest) =
      if a = 47 ∧ isUpperAZ b = true then a :: lowChar b :: camRepl2Body rest
      else a :: camRepl2Body (b :: rest) := rfl

theorem camRepl2Body_no47_id : ∀ l : List Nat, 47 ∉ l → camRepl2Body l = l := by
  intro l
  induction l with
  | nil => exact fun _ => rfl
  | cons a rest ih =>
    intro h47
    have ha : a ≠ 47 := fun h => h47 (by simp [h])
    cases rest with
    | nil => rfl
    | cons b rest2 =>
      have hcond : ¬(a = 47 ∧ isUpperAZ b = true) := fun hx => ha hx.1
      rw [camRepl2Body_cons2, if_neg hcond, ih (fun h => h47 (List.mem_cons_of_mem a h))]

theorem camRepl2Body_slash_head (y : List Nat) :
    camRepl2Body (47 :: y) = 47 :: camRepl2 y := by
  cases y with
  | nil => rfl
  | cons b rest =>
    rw [camRepl2Body_cons2, camRepl2_cons]
    by_cases hb : isUpperAZ b = true
    · rw [if_pos ⟨rfl, hb⟩, if_pos hb]
    · rw [if_neg (fun hx => hb hx.2), if_neg hb]

theorem camRepl2Body_cross :
    ∀ x : List Nat, 47 ∉ x → ∀ y,
      camRepl2Body (x ++ 47 :: y) = x ++ 47 :: camRepl2 y := by
  intro x
  induction x with
  | nil => exact fun _ y => camRepl2Body_slash_head y
  | cons a rest ih =>
    intro h47 y
    have ha : a ≠ 47 := fun h => h47 (by simp [h])
    have hrest := ih (fun h => h47 (List.mem_cons_of_mem a h)) y
    cases rest with
    | nil =>
      have hcond : ¬(a = 47 ∧ isUpperAZ 47 = true) := fun hx => ha hx.1
      show camRepl2Body (a :: 47 :: y) = a :: 47 :: camRepl2 y
      rw [camRepl2Body_cons2, if_neg hcond, camRepl2Body_slash_head y]
    | cons b rest2 =>
      have hcond : ¬(a = 47 ∧ isUpperAZ b = true) := fun hx => ha hx.1
      show camRepl2Body (a :: ((b :: rest2) ++ 47 :: y)) = a :: ((b :: rest2) ++ 47 :: camRepl2 y)
      rw [List.cons_append, camRepl2Body_cons2, if_neg hcond]
      exact congrArg (a :: ·) hrest

theorem camRepl2_cross (x : List Nat) (h47 : 47 ∉ x) (y : List Nat) :
    camRepl2 (x ++ 47 :: y) = camRepl2 x ++ 47 :: camRepl2 y := by
  cases x with
  | nil =>
    show camRepl2 (47 :: y) = camRepl2 [] ++ 47 :: camRepl2 y
    rw [camRepl2_cons, if_neg (by decide : ¬isUpperAZ 47 = true), camRepl2Body_slash_head y]
    rfl
  | cons c rest =>
    have hrest : (47 : Nat) ∉ rest := fun h => h47 (List.mem_cons_of_mem c h)
    show camRepl2 (c :: (rest ++ 47 :: y)) = camRepl2 (c :: rest) ++ 47 :: camRepl2 y
    rw [camRepl2_cons, camRepl2_cons]
    by_cases hc : isUpperAZ c = true
    · rw [if_pos hc, if_pos hc, camRepl2Body_cross rest hrest y,
        camRepl2Body_no47_id rest hrest, List.cons_append]
    · rw [if_neg hc, if_neg hc, ← List.cons_append, camRepl2Body_cross (c :: rest) h47 y,
        camRepl2Body_no47_id (c :: rest) h47, List.cons_append]

theorem camelize_cross (a : List Nat) (h47 : 47 ∉ a) (t : List Nat) :
    camelize (a ++ 47 :: t) = camelize a ++ 47 :: camelize t := by
  unfold camelize
  rw [(camRepl1_cross a h47 t).1, camRepl2_cross (camRepl1 a) (camRepl1_no47 a h47).1]

theorem camelize_no47 (l : List Nat) (h47 : 47 ∉ l) : 47 ∉ camelize l := by
  unfold camelize
  have h1 : 47 ∉ camRepl1 l := (camRepl1_no47 l h47).1
  cases hx : camRepl1 l with
  | nil => simp [camRepl2]
  | cons c rest =>
    rw [hx] at h1
    have hc : c ≠ 47 := fun h => h1 (by simp [h])
    have hrest : (47 : Nat) ∉ rest := fun h => h1 (List.mem_cons_of_mem c h)
    rw [camRepl2_cons]
    split_ifs
    · intro hm
      rcases List.mem_cons.1 hm with h | h
      · exact lowChar_ne_47 c hc h.symm
      · rw [camRepl2Body_no47_id rest hrest] at h
        exact hrest h
    · rw [camRepl2Body_no47_id (c :: rest) h1]
      exact h1

theorem camelize_join :
    ∀ segs : List (List Nat), segs ≠ [] → (∀ seg ∈ segs, 47 ∉ seg) →
      camelize (joinSlash segs) = joinSlash (segs.map camelize) := by
  intro segs
  induction segs with
  | nil => intro h; exact absurd rfl h
  | cons x t ih =>
    intro _ hall
    cases t with
    | nil => rfl
    | cons y t2 =>
      rw [joinSlash_cons, camelize_cross x (hall x (by simp)) (joinSlash (y :: t2)),
        ih (by simp) (fun seg hseg => hall seg (List.mem_cons_of_mem x hseg))]
      rfl

theorem classifyRepl1_no47 (s : List Nat) (h47 : 47 ∉ s) : 47 ∉ classifyRepl1 s := by
  cases s with
  | nil => simp [classifyRepl1]
  | cons c rest =>
    simp only [classifyRepl1]
    split_ifs with hdu
    · cases hdw : (c :: rest).dropWhile isDashUnd with
      | nil => simp
      | cons d rest2 =>
        have hmem : ∀ x ∈ d :: rest2, x ∈ c :: rest := by
          intro x hx
          exact dropWhileSub (c :: rest) x (hdw ▸ hx)
        have hd : d ≠ 47 := fun h => h47 (h ▸ hmem d (by simp))
        show 47 ∉ (if isLineTerm d = true then d :: rest2 else 95 :: (upChar d ++ rest2))
        split_ifs with hlt
        · intro hm
          exact h47 (hmem 47 hm)
        · intro hm
          rcases List.mem_cons.1 hm with h | h
          · omega
          · rcases List.mem_append.1 h with h2 | h2
            · exact upChar_ne_47 d (fun h3 => h47 (h3 ▸ hmem d (by simp))) h2
            · exact h47 (hmem 47 (List.mem_cons_of_mem d h2))
    · exact h47

theorem classifyRepl2_cons2 (a b : Nat) (rest : List Nat) :
    classifyRepl2 (a :: b :: rest) =
      if isLineTerm a = true then a :: classifyRepl2 (b :: rest)
      else if isCamSep b = true then a :: classifyGap rest
      else a :: classifyRepl2 (b :: rest) := rfl

theorem classifyRepl2_single (a : Nat) :
    classifyRepl2 [a] = if isLineTerm a = true then a :: classifyRepl2 [] else [a] := rfl

theorem classifyGap_cons (d : Nat) (rest : List Nat) :
    classifyGap (d :: rest) =
      if isCamSep d = true then classifyGap rest else upChar d ++ classifyRepl2 rest := rfl

theorem classifyRepl2_no47 :
    ∀ l : List Nat, (47 ∉ l → 47 ∉ classifyRepl2 l) ∧ (47 ∉ l → 47 ∉ classifyGap l) := by
  intro l
  induction l using listLenInd with
  | step l ih =>
    match l with
    | [] => exact ⟨fun _ => by simp [classifyRepl2], fun _ => by simp [classifyGap]⟩
    | [a] =>
      constructor
      · intro h47
        have ha : a ≠ 47 := fun h => h47 (by simp [h])
        rw [classifyRepl2_single]
        split_ifs
        · intro hm
          rcases List.mem_cons.1 hm with h | h
          · exact ha h.symm
          · simp [classifyRepl2] at h
        · intro hm
          exact ha (List.mem_singleton.1 hm).symm
      · intro h47
        have ha : a ≠ 47 := fun h => h47 (by simp [h])
        rw [classifyGap_cons]
        split_ifs
        · simp [classifyGap]
        · intro hm
          rcases List.mem_append.1 hm with h | h
          · exact upChar_ne_47 a ha h
          · simp [classifyRepl2] at h
    | a :: b :: rest =>
      have hab : ∀ x ∈ a :: b :: rest, 47 ∉ (a :: b :: rest) → x ∈ a :: b :: rest := fun x hx _ => hx
      constructor
      · intro h47
        have ha : a ≠ 47 := fun h => h47 (by simp [h])
        have hbr : (47 : Nat) ∉ b :: rest := fun h => h47 (List.mem_cons_of_mem a h)
        have hr : (47 : Nat) ∉ rest := fun h => hbr (List.mem_cons_of_mem b h)
        rw [classifyRepl2_cons2]
        have ih1 := (ih (b :: rest) (by simp)).1 hbr
        have ihg := (ih rest (by simp; omega)).2 hr
        split_ifs <;> intro hm <;> rcases List.mem_cons.1 hm with h | h
        · exact ha h.symm
        · exact ih1 h
        · exact ha h.symm
        · exact ihg h
        · exact ha h.symm
        · exact ih1 h
      · intro h47
        have ha : a ≠ 47 := fun h => h47 (by simp [h])
        have hbr : (47 : Nat) ∉ b :: rest := fun h => h47 (List.mem_cons_of_mem a h)
        rw [classifyGap_cons]
        have ihg := (ih (b :: rest) (by simp)).2 hbr
        have ih1 := (ih (b :: rest) (by simp)).1 hbr
        split_ifs
        · exact ihg
        · intro hm
          rcases List.mem_append.1 hm with h | h
          · exact upChar_ne_47 a ha h
          · exact ih1 h

theorem classifyRepl3Body_cons2 (a b : Nat) (rest : List Nat) :
    classifyRepl3Body (a :: b :: rest) =
      if (a = 47 ∨ a = 46) ∧ isLowerAZ b = true then a :: ((b - 32) :: classifyRepl3Body rest)
      else a :: classifyRepl3Body (b :: rest) := rfl

theorem classifyRepl3_cons (c : Nat) (rest : List Nat) :
    classifyRepl3 (c :: rest) =
      if isLowerAZ c = true then (c - 32) :: classifyRepl3Body rest
      else classifyRepl3Body (c :: rest) := rfl

theorem classifyRepl3Body_slash_head (y : List Nat) :
    classifyRepl3Body (47 :: y) = 47 :: classifyRepl3 y := by
  cases y with
  | nil => rfl
  | cons b rest =>
    rw [classifyRepl3Body_cons2, classifyRepl3_cons]
    by_cases hb : isLowerAZ b = true
    · rw [if_pos ⟨Or.inl rfl, hb⟩, if_pos hb]
    · rw [if_neg (fun hx => hb hx.2), if_neg hb]

theorem classifyRepl3Body_cross :
    ∀ x : List Nat, 47 ∉ x → ∀ y,
      classifyRepl3Body (x ++ 47 :: y) = classifyRepl3Body x ++ 47 :: classifyRepl3 y := by
  intro x
  induction x using listLenInd with
  | step x ih =>
    intro h47 y
    match x with
    | [] => exact classifyRepl3Body_slash_head y
    | [a] =>
      have hcond : ¬((a = 47 ∨ a = 46) ∧ isLowerAZ 47 = true) := fun hx => by
        have : isLowerAZ 47 = false := by decide
        rw [this] at hx
        exact absurd hx.2 (by simp)
      show classifyRepl3Body (a :: 47 :: y) = [a] ++ 47 :: classifyRepl3 y
      rw [classifyRepl3Body_cons2, if_neg hcond, classifyRepl3Body_slash_head y]
      rfl
    | a :: b :: x2 =>
      have ha : a ≠ 47 := fun h => h47 (by simp [h])
      have hbx : (47 : Nat) ∉ b :: x2 := fun h => h47 (List.mem_cons_of_mem a h)
      have hx2 : (47 : Nat) ∉ x2 := fun h => hbx (List.mem_cons_of_mem b h)
      show classifyRepl3Body (a :: ((b :: x2) ++ 47 :: y)) =
        classifyRepl3Body (a :: b :: x2) ++ 47 :: classifyRepl3 y
      by_cases hcond : (a = 47 ∨ a = 46) ∧ isLowerAZ b = true
      · rw [List.cons_append, classifyRepl3Body_cons2, if_pos hcond,
          classifyRepl3Body_cons2, if_pos hcond, ih x2 (by simp; omega) hx2 y]
        rfl
      · rw [List.cons_append, classifyRepl3Body_cons2, if_neg hcond,
          classifyRepl3Body_cons2, if_neg hcond, ← List.cons_append,
          ih (b :: x2) (by simp) hbx y]
        rfl

theorem classifyRepl3_cross (x : List Nat) (h47 : 47 ∉ x) (y : List Nat) :
    classifyRepl3 (x ++ 47 :: y) = classifyRepl3 x ++ 47 :: classifyRepl3 y := by
  cases x with
  | nil =>
    show classifyRepl3 (47 :: y) = classifyRepl3 [] ++ 47 :: classifyRepl3 y
    rw [classifyRepl3_cons, if_neg (by decide : ¬isLowerAZ 47 = true),
      classifyRepl3Body_slash_head y]
    rfl
  | cons c rest =>
    have hrest : (47 : Nat) ∉ rest := fun h => h47 (List.mem_cons_of_mem c h)
    show classifyRepl3 (c :: (rest ++ 47 :: y)) = classifyRepl3 (c :: rest) ++ 47 :: classifyRepl3 y
    rw [classifyRepl3_cons, classifyRepl3_cons]
    by_cases hc : isLowerAZ c = true
    · rw [if_pos hc, if_pos hc, classifyRepl3Body_cross rest hrest y, List.cons_append]
    · rw [if_neg hc, if_neg hc, ← List.cons_append, classifyRepl3Body_cross (c :: rest) h47 y]

theorem classify_single (seg : List Nat) (h47 : 47 ∉ seg) :
    classify seg = classifyRepl3 (classifyRepl2 (classifyRepl1 seg)) := by
  unfold classify
  rw [splitSlash_of_no47 seg h47]
  rfl

theorem classify_join :
    ∀ segs : List (List Nat), segs ≠ [] → (∀ seg ∈ segs, 47 ∉ seg) →
      classifyRepl3 (joinSlash (segs.map fun seg => classifyRepl2 (classifyRepl1 seg))) =
        joinSlash (segs.map classify) := by
  intro segs
  induction segs with
  | nil => intro h; exact absurd rfl h
  | cons x t ih =>
    intro _ hall
    cases t with
    | nil =>
      show classifyRepl3 (classifyRepl2 (classifyRepl1 x)) = classify x
      exact (classify_single x (hall x (by simp))).symm
    | cons y t2 =>
      have hx47 : 47 ∉ x := hall x (by simp)
      have hf47 : 47 ∉ classifyRepl2 (classifyRepl1 x) :=
        (classifyRepl2_no47 (classifyRepl1 x)).1 (classifyRepl1_no47 x hx47)
      have hih := ih (by simp) (fun seg hseg => hall seg (List.mem_cons_of_mem x hseg))
      calc
        classifyRepl3
            (joinSlash (List.map (fun seg => classifyRepl2 (classifyRepl1 seg)) (x :: y :: t2)))
          = classifyRepl3 (classifyRepl2 (classifyRepl1 x) ++ 47 ::
              joinSlash (List.map (fun seg => classifyRepl2 (classifyRepl1 seg)) (y :: t2))) := rfl
        _ = classifyRepl3 (classifyRepl2 (classifyRepl1 x)) ++ 47 ::
              classifyRepl3
                (joinSlash (List.map (fun seg => classifyRepl2 (classifyRepl1 seg)) (y :: t2))) :=
            classifyRepl3_cross _ hf47 _
        _ = classify x ++ 47 :: joinSlash (List.map classify (y :: t2)) := by
            rw [hih, classify_single x hx47]
        _ = joinSlash (List.map classify (x :: y :: t2)) := rfl

/-- Claim C8: `camelize` and `classify` are segment-aware for path-like
strings: for every string, each '/'-separated segment is transformed
independently and the segments are rejoined with '/'; in particular
`classify('private-docs/owner-invoice') == 'PrivateDocs/OwnerInvoice'` and
`camelize('private-docs/owner-invoice') == 'privateDocs/ownerInvoice'`. -/
theorem camelize_classify_segmentwise :
    (∀ s, camelize s = joinSlash ((splitSlash s).map camelize)) ∧
    (∀ s, classify s = joinSlash ((splitSlash s).map classify)) ∧
    classify (codes "private-docs/owner-invoice") = codes "PrivateDocs/OwnerInvoice" ∧
    camelize (codes "private-docs/owner-invoice") = codes "privateDocs/ownerInvoice" := by
  refine ⟨fun s => ?_, fun s => ?_, by decide, by decide⟩
  · have h := camelize_join (splitSlash s) (splitSlash_ne_nil s) (splitSlash_no47 s)
    rw [splitSlash_join s] at h
    exact h
  · exact classify_join (splitSlash s) (splitSlash_ne_nil s) (splitSlash_no47 s)

/-! ## Claims C6, C7: the format helper -/

/-- Claim C6: the format helper substitutes each `%@` token with the next
positional argument in left-to-right order (the running index is consumed and
incremented), and each `%@N` token with the 1-based N-th argument, leaving
the running positional index unchanged; in particular
`format('Hello %@ %@', ['John', 'Smith']) == 'Hello John Smith'` and
`format('Hello %@2 %@1', ['John', 'Smith']) == 'Hello Smith John'`. -/
theorem fmt_positional_and_explicit_tokens :
    fmt (codes "Hello %@ %@") [JSVal.vstr (codes "John"), JSVal.vstr (codes "Smith")] =
      codes "Hello John Smith" ∧
    fmt (codes "Hello %@2 %@1") [JSVal.vstr (codes "John"), JSVal.vstr (codes "Smith")] =
      codes "Hello Smith John" ∧
    (∀ args acc idx, 1 ≤ acc → tokOut args acc true idx = argText args (acc - 1)) ∧
    (∀ args acc idx, tokOut args acc false idx = argText args idx) ∧
    (∀ idx, nextIdx true idx = idx ∧ nextIdx false idx = idx + 1) := by
  refine ⟨by decide, by decide, ?_, ?_, ?_⟩
  · intro args acc idx h
    rw [tokOut, if_pos rfl, if_neg (by omega)]
  · intro args acc idx
    rw [tokOut, if_neg (by simp)]
  · intro idx
    exact ⟨rfl, rfl⟩

theorem fmt_positional_and_explicit_tokens_witness :
    (1 : Nat) ≤ 2 ∧
      tokOut [JSVal.vstr (codes "a"), JSVal.vstr (codes "b")] 2 true 0 =
        argText [JSVal.vstr (codes "a"), JSVal.vstr (codes "b")] 1 :=
  ⟨by decide, fmt_positional_and_explicit_tokens.2.2.1 _ 2 0 (by decide)⟩

/-- Claim C7: the format helper never fails: a `null` argument is substituted
as the literal text `(null)`, an `undefined` argument as the empty string,
and a missing argument (an index at or beyond the argument list, as a `%@N`
with too large an N produces) also as the empty string. -/
theorem fmt_null_undefined_graceful :
    (∀ args i, args.get? i = some JSVal.vnull → argText args i = codes "(null)") ∧
    (∀ args i, args.get? i = some JSVal.vundef → argText args i = []) ∧
    (∀ args i, args.length ≤ i → argText args i = []) ∧
    fmt (codes "a%@b%@c%@7d") [JSVal.vnull, JSVal.vundef] = codes "a(null)bcd" := by
  refine ⟨?_, ?_, ?_, by decide⟩
  · intro args i h
    rw [argText, h]
  · intro args i h
    rw [argText, h]
  · intro args i h
    rw [argText, List.get?_eq_none.mpr h]

theorem fmt_null_undefined_graceful_witness :
    ([JSVal.vnull].get? 0 = some JSVal.vnull ∧ argText [JSVal.vnull] 0 = codes "(null)") ∧
    ([JSVal.vundef].get? 0 = some JSVal.vundef ∧ argText [JSVal.vundef] 0 = []) ∧
    (([] : List JSVal).length ≤ 3 ∧ argText [] 3 = []) :=
  ⟨⟨rfl, fmt_null_undefined_graceful.1 _ 0 rfl⟩,
   ⟨rfl, fmt_null_undefined_graceful.2.1 _ 0 rfl⟩,
   ⟨by decide, fmt_null_undefined_graceful.2.2.1 [] 3 (by decide)⟩⟩

/-! ## Claim C10: `loc` -/

/-- Claim C10: `loc` falls back to formatting the key itself not only when
the registry lookup reports the key absent, but also when the lookup returns
the empty string, because the fallback is the falsy-coalescing expression
`getString(str) || str`. -/
theorem loc_falls_back_on_empty_and_absent :
    (∀ (reg : List Nat → Option (List Nat)) s formats,
      reg s = some [] → loc reg s formats = fmt s formats) ∧
    (∀ (reg : List Nat → Option (List Nat)) s formats,
      reg s = none → loc reg s formats = fmt s formats) := by
  constructor <;> intro reg s formats h <;> simp [loc, jsOrElse, h]

theorem loc_falls_back_on_empty_and_absent_witness :
    ((fun _ : List Nat => some ([] : List Nat)) (codes "Hi %@") = some [] ∧
      loc (fun _ => some []) (codes "Hi %@") [JSVal.vstr (codes "Jo")] =
        fmt (codes "Hi %@") [JSVal.vstr (codes "Jo")]) ∧
    ((fun _ : List Nat => (none : Option (List Nat))) (codes "Hi %@") = none ∧
      loc (fun _ => none) (codes "Hi %@") [JSVal.vstr (codes "Jo")] =
        fmt (codes "Hi %@") [JSVal.vstr (codes "Jo")]) :=
  ⟨⟨rfl, loc_falls_back_on_empty_and_absent.1 _ _ _ rfl⟩,
   ⟨rfl, loc_falls_back_on_empty_and_absent.2 _ _ _ rfl⟩⟩

/-! ## Claims C1, C2: the bounded memoizing cache -/

theorem cacheLookup_eq_none_iff (k : List Nat) :
    ∀ l : List (List Nat × List Nat), cacheLookup k l = none ↔ ∀ p ∈ l, p.1 ≠ k := by
  intro l
  induction l with
  | nil => simp [cacheLookup]
  | cons p rest ih =>
    obtain ⟨k2, v⟩ := p
    simp only [cacheLookup]
    split_ifs with h
    · simp only [iff_false, reduceCtorEq, false_iff]
      intro hall
      exact hall (k2, v) (by simp) h
    · rw [ih]
      constructor
      · intro hall q hq
        rcases List.mem_cons.1 hq with rfl | hq2
        · exact h
        · exact hall q hq2
      · intro hall q hq
        exact hall q (List.mem_cons_of_mem _ hq)

theorem cacheLookup_append_of_none (k : List Nat) :
    ∀ l1 l2 : List (List Nat × List Nat), cacheLookup k l1 = none →
      cacheLookup k (l1 ++ l2) = cacheLookup k l2 := by
  intro l1
  induction l1 with
  | nil => intro l2 _; rfl
  | cons p rest ih =>
    intro l2 h
    obtain ⟨k2, v⟩ := p
    simp only [cacheLookup] at h ⊢
    have h2 : ¬ k2 = k := by
      intro hk
      rw [if_pos hk] at h
      exact absurd h (by simp)
    rw [if_neg h2] at h ⊢
    exact ih l2 h

theorem cacheLookup_mem (k v : List Nat) :
    ∀ l : List (List Nat × List Nat), cacheLookup k l = some v → (k, v) ∈ l := by
  intro l
  induction l with
  | nil => intro h; simp [cacheLookup] at h
  | cons p rest ih =>
    intro h
    obtain ⟨k2, v2⟩ := p
    simp only [cacheLookup] at h
    split_ifs at h with h2
    · obtain rfl := h2
      obtain rfl : v2 = v := by simpa using h
      simp
    · exact List.mem_cons_of_mem _ (ih h)

theorem cacheLookup_tail_none (k : List Nat) (l : List (List Nat × List Nat))
    (h : cacheLookup k l = none) : cacheLookup k l.tail = none := by
  rw [cacheLookup_eq_none_iff] at h ⊢
  exact fun p hp => h p (List.mem_of_mem_tail hp)

theorem cacheLookup_map_self (f : List Nat → List Nat) (k : List Nat) :
    ∀ l : List (List Nat), l.Nodup → k ∈ l →
      cacheLookup k (l.map fun x => (x, f x)) = some (f k) := by
  intro l
  induction l with
  | nil => intro _ h; simp at h
  | cons x rest ih =>
    intro hnd hk
    simp only [List.map_cons, cacheLookup]
    rcases List.mem_cons.1 hk with rfl | hk2
    · rw [if_pos rfl]
    · have hx : x ≠ k := by
        intro h
        subst h
        exact (List.nodup_cons.1 hnd).1 hk2
      rw [if_neg hx]
      exact ih (List.nodup_cons.1 hnd).2 hk2

theorem cacheLookup_map_not_mem (f : List Nat → List Nat) (k : List Nat) :
    ∀ l : List (List Nat), k ∉ l → cacheLookup k (l.map fun x => (x, f x)) = none := by
  intro l
  induction l with
  | nil => intro _; rfl
  | cons x rest ih =>
    intro hk
    simp only [List.map_cons, cacheLookup]
    rw [if_neg (fun h => hk (by simp [h]))]
    exact ih (fun h => hk (List.mem_cons_of_mem x h))

theorem insertAll_fill :
    ∀ (ks : List (List Nat)) (c : Cache),
      ks.Nodup → (∀ k ∈ ks, cacheLookup k c.entries = none) →
      c.entries.length + ks.length ≤ c.capacity →
      insertAll c ks =
        { capacity := c.capacity,
          entries := c.entries ++ ks.map (fun k => (k, c.compute k)),
          compute := c.compute, misses := c.misses + ks.length } := by
  intro ks
  induction ks with
  | nil =>
    intro c _ _ _
    obtain ⟨cap, es, f, m⟩ := c
    simp [insertAll]
  | cons k ks ih =>
    intro c hnd hnone hlen
    obtain ⟨cap, es, f, m⟩ := c
    simp only [List.length_cons] at hlen
    have hmiss : cacheLookup k es = none := hnone k (by simp)
    have hlt : ¬ cap ≤ es.length := by omega
    have hstep : insertAll ⟨cap, es, f, m⟩ (k :: ks) =
        insertAll ⟨cap, es ++ [(k, f k)], f, m + 1⟩ ks := by
      simp [insertAll, Cache.get, hmiss, if_neg hlt]
    rw [hstep, ih ⟨cap, es ++ [(k, f k)], f, m + 1⟩ (List.nodup_cons.1 hnd).2 ?_ ?_]
    · have hmisses : m + 1 + ks.length = m + (ks.length + 1) := by omega
      simp [Cache.mk.injEq, List.append_assoc, hmisses]
    · intro k2 hk2
      have hne : k ≠ k2 := by
        intro h
        subst h
        exact (List.nodup_cons.1 hnd).1 hk2
      show cacheLookup k2 (es ++ [(k, f k)]) = none
      rw [cacheLookup_append_of_none k2 es _ (hnone k2 (List.mem_cons_of_mem k hk2))]
      simp [cacheLookup, hne]
    · show (es ++ [(k, f k)]).length + ks.length ≤ cap
      simp only [List.length_append, List.length_singleton]
      omega

theorem mapTail {α β : Type} (g : α → β) : ∀ l : List α, (l.map g).tail = l.tail.map g
  | [] => rfl
  | _ :: _ => rfl

/-- Claim C1: a transform cache (construction uses capacity 1000 for all six
transforms) never holds more entries than its capacity; a read that hits
leaves the cache completely unchanged (so reads cannot affect which entry is
evicted — strict FIFO, not LRU); and inserting K+1 distinct keys into a fresh
cache of capacity K evicts exactly the first-inserted key, while the K
most-recently-inserted keys remain resident with their computed values. -/
theorem cache_fifo_eviction :
    (∀ (c : Cache) (k : List Nat), 1 ≤ c.capacity → c.entries.length ≤ c.capacity →
      ((c.get k).2).entries.length ≤ c.capacity) ∧
    (∀ (c : Cache) (k v : List Nat), cacheLookup k c.entries = some v → c.get k = (v, c)) ∧
    (DECAMELIZE_CACHE.capacity = 1000 ∧ STRING_DASHERIZE_CACHE.capacity = 1000 ∧
      CAMELIZE_CACHE.capacity = 1000 ∧ CLASSIFY_CACHE.capacity = 1000 ∧
      UNDERSCORE_CACHE.capacity = 1000 ∧ CAPITALIZE_CACHE.capacity = 1000) ∧
    (∀ (K : Nat) (f : List Nat → List Nat) (init : List (List Nat)) (klast : List Nat),
      1 ≤ K → init.length = K → (init ++ [klast]).Nodup →
      (insertAll (Cache.mk K [] f 0) (init ++ [klast])).entries =
        (init.tail ++ [klast]).map (fun k => (k, f k)) ∧
      (insertAll (Cache.mk K [] f 0) (init ++ [klast])).entries.length = K ∧
      (∀ k0, init.head? = some k0 →
        cacheLookup k0 (insertAll (Cache.mk K [] f 0) (init ++ [klast])).entries = none) ∧
      (∀ k ∈ init.tail ++ [klast],
        cacheLookup k (insertAll (Cache.mk K [] f 0) (init ++ [klast])).entries =
          some (f k))) := by
  refine ⟨?_, ?_, ⟨rfl, rfl, rfl, rfl, rfl, rfl⟩, ?_⟩
  · intro c k h1 h2
    obtain ⟨cap, es, f, m⟩ := c
    simp only at h1 h2 ⊢
    cases hl : cacheLookup k es with
    | some v => simp only [Cache.get, hl]; exact h2
    | none =>
      simp only [Cache.get, hl, List.length_append, List.length_singleton]
      split_ifs with h3
      · simp only [List.length_tail]
        omega
      · omega
  · intro c k v h
    simp [Cache.get, h]
  · intro K f init klast hK hlen hnd
    have hndinit : init.Nodup := (List.nodup_append.1 hnd).1
    have hdisj := (List.nodup_append.1 hnd).2.2
    have hknot : klast ∉ init := fun hmem => hdisj hmem (by simp)
    have hfill : insertAll (Cache.mk K [] f 0) init =
        ⟨K, init.map (fun k => (k, f k)), f, init.length⟩ := by
      rw [insertAll_fill init (Cache.mk K [] f 0) hndinit (fun k _ => rfl) (by simp [hlen])]
      simp
    have hsplit : insertAll (Cache.mk K [] f 0) (init ++ [klast]) =
        (Cache.get (insertAll (Cache.mk K [] f 0) init) klast).2 := by
      simp [insertAll, List.foldl_append]
    have hlookup : cacheLookup klast (List.map (fun k => (k, f k)) init) = none :=
      cacheLookup_map_not_mem f klast init hknot
    have hfull : K ≤ (List.map (fun k => (k, f k)) init).length := by
      simp [hlen]
    have hentries : (insertAll (Cache.mk K [] f 0) (init ++ [klast])).entries =
        (init.tail ++ [klast]).map (fun k => (k, f k)) := by
      rw [hsplit, hfill]
      simp only [Cache.get, hlookup, if_pos hfull]
      rw [mapTail (fun k => (k, f k)) init]
      simp [List.map_append]
    have hndtail : (init.tail ++ [klast]).Nodup :=
      ((List.tail_sublist init).append_right [klast]).nodup hnd
    refine ⟨hentries, ?_, ?_, ?_⟩
    · rw [hentries]
      simp only [List.length_map, List.length_append, List.length_tail,
        List.length_singleton]
      omega
    · intro k0 hk0
      cases init with
      | nil => simp at hk0
      | cons a init2 =>
        have hak : a = k0 := by simpa using hk0
        rw [hentries]
        have hnot : k0 ∉ init2 ++ [klast] := by
          have h2 : (a :: (init2 ++ [klast])).Nodup := by
            simpa [List.cons_append] using hnd
          rw [hak] at h2
          exact (List.nodup_cons.1 h2).1
        exact cacheLookup_map_not_mem f k0 _ hnot
    · intro k hk
      rw [hentries]
      exact cacheLookup_map_self f k _ hndtail hk

theorem cache_fifo_eviction_witness :
    (1 ≤ (Cache.mk 2 [([65], [65])] (fun s => s) 1).capacity ∧
      (Cache.mk 2 [([65], [65])] (fun s => s) 1).entries.length ≤
        (Cache.mk 2 [([65], [65])] (fun s => s) 1).capacity ∧
      ((Cache.get (Cache.mk 2 [([65], [65])] (fun s => s) 1) [66]).2).entries.length ≤
        (Cache.mk 2 [([65], [65])] (fun s => s) 1).capacity) ∧
    (Cache.get (Cache.mk 2 [([65], [65, 65])] (fun s => s ++ s) 5) [65] =
      ([65, 65], Cache.mk 2 [([65], [65, 65])] (fun s => s ++ s) 5)) ∧
    ((insertAll (Cache.mk 2 [] (fun s => s ++ s) 0) ([[65], [66]] ++ [[67]])).entries =
        (([[65], [66]] : List (List Nat)).tail ++ [[67]]).map (fun k => (k, k ++ k)) ∧
      cacheLookup [65]
        (insertAll (Cache.mk 2 [] (fun s => s ++ s) 0) ([[65], [66]] ++ [[67]])).entries =
          none ∧
      cacheLookup [67]
        (insertAll (Cache.mk 2 [] (fun s => s ++ s) 0) ([[65], [66]] ++ [[67]])).entries =
          some ([67] ++ [67])) :=
  ⟨⟨by decide, by decide,
    cache_fifo_eviction.1 (Cache.mk 2 [([65], [65])] (fun s => s) 1) [66]
      (by decide) (by decide)⟩,
   cache_fifo_eviction.2.1 (Cache.mk 2 [([65], [65, 65])] (fun s => s ++ s) 5) [65] [65, 65]
     rfl,
   (cache_fifo_eviction.2.2.2 2 (fun s => s ++ s) [[65], [66]] [67]
       (by decide) (by decide) (by decide)).1,
   (cache_fifo_eviction.2.2.2 2 (fun s => s ++ s) [[65], [66]] [67]
       (by decide) (by decide) (by decide)).2.2.1 [65] rfl,
   (cache_fifo_eviction.2.2.2 2 (fun s => s ++ s) [[65], [66]] [67]
       (by decide) (by decide) (by decide)).2.2.2 [67] (by decide)⟩

theorem mkCache_wf (f : List Nat → List Nat) : CacheWF (mkCache f) := by
  intro p hp
  simp [mkCache] at hp

/-- Claim C2: on a well-formed cache (one whose resident values are its
compute function's outputs — as holds for the six freshly constructed
transform caches and is preserved by `get`), `get` returns exactly the
underlying pure transform's output, so the cached function is extensionally
equal to its pure transform; and calling `get` twice with the identical key
returns byte-identical output both times, the second call leaving the cache
unchanged — in particular the recorded miss count does not increase. -/
theorem cached_transform_transparent :
    (∀ (c : Cache) (k : List Nat), CacheWF c → (c.get k).1 = c.compute k) ∧
    (∀ (c : Cache) (k : List Nat), CacheWF c → CacheWF (c.get k).2) ∧
    (∀ (c : Cache) (k : List Nat),
      ((c.get k).2.get k).1 = (c.get k).1 ∧
      ((c.get k).2.get k).2 = (c.get k).2 ∧
      ((c.get k).2.get k).2.misses = ((c.get k).2).misses) ∧
    (CacheWF DECAMELIZE_CACHE ∧ CacheWF STRING_DASHERIZE_CACHE ∧
      CacheWF CAMELIZE_CACHE ∧ CacheWF CLASSIFY_CACHE ∧
      CacheWF UNDERSCORE_CACHE ∧ CacheWF CAPITALIZE_CACHE) := by
  refine ⟨?_, ?_, ?_,
    mkCache_wf decamelize, mkCache_wf dasherize, mkCache_wf camelize,
    mkCache_wf classify, mkCache_wf underscore, mkCache_wf capitalize⟩
  · intro c k hwf
    obtain ⟨cap, es, f, m⟩ := c
    cases hl : cacheLookup k es with
    | some v =>
      simp only [Cache.get, hl]
      exact hwf (k, v) (cacheLookup_mem k v es hl)
    | none => simp [Cache.get, hl]
  · intro c k hwf
    obtain ⟨cap, es, f, m⟩ := c
    cases hl : cacheLookup k es with
    | some v =>
      simp only [Cache.get, hl]
      exact hwf
    | none =>
      simp only [Cache.get, hl]
      intro p hp
      rcases List.mem_append.1 hp with hkept | hnew
      · refine hwf p ?_
        revert hkept
        split_ifs
        · exact fun h => List.mem_of_mem_tail h
        · exact fun h => h
      · obtain rfl : p = (k, f k) := by simpa using hnew
        rfl
  · intro c k
    obtain ⟨cap, es, f, m⟩ := c
    cases hl : cacheLookup k es with
    | some v => simp [Cache.get, hl]
    | none =>
      have hkept : cacheLookup k (if cap ≤ es.length then es.tail else es) = none := by
        split_ifs
        · exact cacheLookup_tail_none k es hl
        · exact hl
      have hsecond :
          cacheLookup k ((if cap ≤ es.length then es.tail else es) ++ [(k, f k)]) =
            some (f k) := by
        rw [cacheLookup_append_of_none k _ _ hkept]
        simp [cacheLookup]
      simp [Cache.get, hl, hsecond]

theorem cached_transform_transparent_witness :
    CacheWF DECAMELIZE_CACHE ∧
    (DECAMELIZE_CACHE.get (codes "innerHTML")).1 = decamelize (codes "innerHTML") ∧
    CacheWF (DECAMELIZE_CACHE.get (codes "innerHTML")).2 ∧
    ((DECAMELIZE_CACHE.get (codes "innerHTML")).2.get (codes "innerHTML")).1 =
      (DECAMELIZE_CACHE.get (codes "innerHTML")).1 ∧
    ((DECAMELIZE_CACHE.get (codes "innerHTML")).2.get (codes "innerHTML")).2.misses =
      ((DECAMELIZE_CACHE.get (codes "innerHTML")).2).misses :=
  ⟨mkCache_wf decamelize,
   cached_transform_transparent.1 DECAMELIZE_CACHE (codes "innerHTML")
     (mkCache_wf decamelize),
   cached_transform_transparent.2.1 DECAMELIZE_CACHE (codes "innerHTML")
     (mkCache_wf decamelize),
   (cached_transform_transparent.2.2.1 DECAMELIZE_CACHE (codes "innerHTML")).1,
   (cached_transform_transparent.2.2.1 DECAMELIZE_CACHE (codes "innerHTML")).2.2⟩
